import Mathlib

/-!
# Verification of the BSGS diagonal method (openfhe-benchmarks)

A shallow embedding of the planning and evaluation logic of the
baby-step/giant-step (BSGS) diagonal method for homomorphic matrix-vector
multiplication, translated from `examples/bsgs-diagonal-method.cpp`,
`examples/simple-diagonal-method.cpp` and `examples/utils.hpp`.

Machine integers (`int`, `std::size_t`) are modelled by `Int`/`Nat` with
explicit truncated division (`Int.tdiv`/`Int.tmod`, the semantics of C++
`/` and `%` on `int`) and explicit reductions modulo `2^64` where the code
mixes signed and unsigned arithmetic.  `double` matrix entries are
modelled by `ℚ`: the code under scrutiny only moves, compares and selects
these values, so exact arithmetic is a faithful model of everything except
the CKKS noise itself (out of scope: the spec declares the CKKS scheme an
external collaborator).
-/

/-- `normalizeToSignedIndex` from `examples/bsgs-diagonal-method.cpp` (lines 42-49):
converts a diagonal index from `[0, numSlots-1]` to the signed range by keeping
indices up to `halfSlots = numSlots / 2` and shifting the rest down by `numSlots`.
C++ `numSlots / 2` on `int` is truncated division, i.e. `Int.tdiv`. -/
def normalizeToSignedIndex (k numSlots : Int) : Int :=
  if k ≤ numSlots.tdiv 2 then k else k - numSlots

/-- `floorDivision` from `examples/bsgs-diagonal-method.cpp` (lines 54-62):
C++ `/` and `%` truncate toward zero (`Int.tdiv`/`Int.tmod`); the quotient is
decremented when the remainder is nonzero and the operands have opposite signs. -/
def floorDivision (a b : Int) : Int :=
  if a.tmod b ≠ 0 ∧ ¬((a < 0) ↔ (b < 0)) then a.tdiv b - 1 else a.tdiv b

/-- Ordered-set insertion into a strictly ascending duplicate-free list,
modelling `std::set<int>::insert` (a `std::set` iterates in ascending order). -/
def setInsert (x : Int) : List Int → List Int
  | [] => [x]
  | y :: ys => if x < y then x :: y :: ys else if x = y then y :: ys else y :: setInsert x ys

/-- One iteration of the decomposition loop of `examples/bsgs-diagonal-method.cpp`
(lines 175-194): decompose `k = j*n1 + i` by floor division and record the used
baby step `i` and giant step `j`. -/
def stepInsert (n1 : Int) (st : List Int × List Int) (k : Int) : List Int × List Int :=
  let j := floorDivision k n1
  let i := k - j * n1
  (setInsert i st.1, setInsert j st.2)

/-- The decomposition loop of `examples/bsgs-diagonal-method.cpp` (lines 175-194):
for each signed diagonal offset `k` (in ascending `std::map` order), record the
used baby and giant steps in `std::set`s (modelled as sorted duplicate-free
lists). -/
def collectSteps (K : List Int) (n1 : Int) : List Int × List Int :=
  K.foldl (stepInsert n1) ([], [])

/-- The rotation-key index-set construction of `examples/bsgs-diagonal-method.cpp`
(lines 207-221): insert every nonzero used baby step `i`, then `n1 * j` for every
nonzero used giant step `j`. -/
def rotationIndices (K : List Int) (n1 : Int) : List Int :=
  let st := collectSteps K n1
  let withBaby := st.1.foldl (fun r i => if i ≠ 0 then setInsert i r else r) []
  st.2.foldl (fun r j => if j ≠ 0 then setInsert (n1 * j) r else r) withBaby

/-- `std::ceil(std::sqrt(D))` for a nonnegative integer `D`: the least `m` with
`D ≤ m * m`.  (`std::sqrt` is correctly rounded, so the `double` computation in
the source agrees with the exact integer ceiling for the diagonal counts that
arise here.) -/
def ceilSqrt (D : Nat) : Nat :=
  ((List.range (D + 2)).filter (fun m => D ≤ m * m)).headD 0

/-- The `n1` computation with its clamps, `examples/bsgs-diagonal-method.cpp`
(lines 150-154): `n1 = ceil(sqrt(numDiagonals))`, clamped into `[1, numSlots]`. -/
def chooseN1 (numDiagonals : Nat) (numSlots : Int) : Int :=
  let n1 : Int := ceilSqrt numDiagonals
  let n1 := if n1 < 1 then 1 else n1
  if n1 > numSlots then numSlots else n1

section IntLemmas

/-- Truncated remainder negation: `(-a).tmod b = -(a.tmod b)`. -/
theorem neg_tmod_eq (a b : Int) : (-a).tmod b = -(a.tmod b) := by
  have h1 := Int.tdiv_add_tmod a b
  have h2 := Int.tdiv_add_tmod (-a) b
  have h3 : (-a).tdiv b = -(a.tdiv b) := Int.neg_tdiv a b
  have h4 : b * ((-a).tdiv b) = -(b * a.tdiv b) := by rw [h3]; ring
  omega

/-- Bounds for the truncated remainder with a positive divisor. -/
theorem tmod_bounds (a b : Int) (hb : 0 < b) : -b < a.tmod b ∧ a.tmod b < b := by
  rcases le_or_lt 0 a with ha | ha
  · have h1 := Int.tmod_nonneg b ha
    have h2 := Int.tmod_lt_of_pos a hb
    omega
  · have h1 := Int.tmod_nonneg b (by omega : (0:Int) ≤ -a)
    have h2 := Int.tmod_lt_of_pos (-a) hb
    have h3 := neg_tmod_eq a b
    omega

/-- The truncated remainder of a negative dividend is nonpositive. -/
theorem tmod_nonpos_of_neg (a b : Int) (ha : a < 0) : a.tmod b ≤ 0 := by
  have h1 := Int.tmod_nonneg b (by omega : (0:Int) ≤ -a)
  have h3 := neg_tmod_eq a b
  omega

/-- `floorDivision` computes Euclidean division for a positive divisor. -/
theorem floorDivision_eq_ediv (a b : Int) (hb : 0 < b) : floorDivision a b = a / b := by
  have hadd := Int.tdiv_add_tmod a b
  have hbounds := tmod_bounds a b hb
  have hbneg : ¬ (b < 0) := by omega
  unfold floorDivision
  by_cases hcond : a.tmod b ≠ 0 ∧ ¬((a < 0) ↔ (b < 0))
  · -- adjustment branch: the remainder is nonzero and `a` is negative
    have ha : a < 0 := by
      by_contra hge
      exact hcond.2 (iff_of_false hge hbneg)
    have hmodneg : a.tmod b < 0 := by
      have := tmod_nonpos_of_neg a b ha
      rcases hcond with ⟨hne, -⟩
      omega
    have hexp : b * (a.tdiv b - 1) = b * a.tdiv b - b := by ring
    have hr : (a.tmod b + b) + b * (a.tdiv b - 1) = a ∧
        0 ≤ a.tmod b + b ∧ a.tmod b + b < b := by omega
    have := ((Int.ediv_emod_unique hb).mpr hr).1
    rw [if_pos hcond]
    omega
  · -- no adjustment: the remainder is zero or `a` is nonnegative
    have hnonneg : 0 ≤ a.tmod b := by
      rcases Decidable.not_and_iff_or_not.mp hcond with hmod | hiff
      · omega
      · have ha : ¬ (a < 0) := fun ha => (Decidable.not_not.mp hiff).mp ha |> hbneg
        exact Int.tmod_nonneg b (by omega)
    have hr : a.tmod b + b * a.tdiv b = a ∧ 0 ≤ a.tmod b ∧ a.tmod b < b := by omega
    have := ((Int.ediv_emod_unique hb).mpr hr).1
    rw [if_neg hcond]
    omega

end IntLemmas

/-- C3: for every integer `k` and every `n1 ≥ 1`, setting `j = floorDivision k n1`
and `i = k - j*n1` gives `j*n1 + i = k` and `0 ≤ i < n1`, and `floorDivision`
rounds toward negative infinity (it agrees with mathematical floor division). -/
theorem floorDivision_decomposition (k n1 : Int) (h : 1 ≤ n1) :
    floorDivision k n1 * n1 + (k - floorDivision k n1 * n1) = k ∧
    0 ≤ k - floorDivision k n1 * n1 ∧
    k - floorDivision k n1 * n1 < n1 ∧
    floorDivision k n1 = k.fdiv n1 := by
  have hb : (0:Int) < n1 := by omega
  have he := floorDivision_eq_ediv k n1 hb
  have hmod := Int.emod_def k n1
  have h1 := Int.emod_nonneg k (by omega : n1 ≠ 0)
  have h2 := Int.emod_lt_of_pos k hb
  have hc : floorDivision k n1 * n1 = n1 * (k / n1) := by rw [he]; ring
  refine ⟨by ring, by omega, by omega, he.trans (Int.fdiv_eq_ediv k hb.le).symm⟩

/-- Witness for C3 at `k = -5`, `n1 = 3` (where `j = -2`, `i = 1`). -/
theorem floorDivision_decomposition_witness :
    (1 ≤ (3:Int)) ∧
    (floorDivision (-5) 3 * 3 + ((-5) - floorDivision (-5) 3 * 3) = -5 ∧
     0 ≤ (-5) - floorDivision (-5) 3 * 3 ∧
     (-5) - floorDivision (-5) 3 * 3 < 3 ∧
     floorDivision (-5) 3 = Int.fdiv (-5) 3) :=
  ⟨by decide, floorDivision_decomposition (-5) 3 (by decide)⟩

/-- C7 counterexample: normalization is not idempotent for every integer `k`.
At slot count `n = 64` and `k = 200`, one application yields `136`, a second
application yields `72 ≠ 136`. -/
theorem normalizeToSignedIndex_not_idempotent_at_200 :
    normalizeToSignedIndex (normalizeToSignedIndex 200 64) 64 ≠
      normalizeToSignedIndex 200 64 := by decide

/-- C7 (amended): for every slot count `n` and every integer `k` with
`k ≤ n + n/2` — in particular every `k` in the unsigned range `[0, n)` and every
already-signed value — normalization is idempotent, and every `k ≤ n/2` (the
signed range) is a fixed point. -/
theorem normalizeToSignedIndex_idempotent (k n : Int) (h : k ≤ n + n.tdiv 2) :
    normalizeToSignedIndex (normalizeToSignedIndex k n) n = normalizeToSignedIndex k n ∧
    (k ≤ n.tdiv 2 → normalizeToSignedIndex k n = k) := by
  unfold normalizeToSignedIndex
  constructor
  · split_ifs <;> omega
  · intro hk
    split_ifs
    omega

/-- Witness for the amended C7 at `k = 63`, `n = 64` (an unsigned index that
normalizes to `-1`, a fixed point). -/
theorem normalizeToSignedIndex_idempotent_witness :
    ((63:Int) ≤ 64 + (64:Int).tdiv 2) ∧
    (normalizeToSignedIndex (normalizeToSignedIndex 63 64) 64 =
       normalizeToSignedIndex 63 64 ∧
     ((63:Int) ≤ (64:Int).tdiv 2 → normalizeToSignedIndex 63 64 = 63)) :=
  ⟨by decide, normalizeToSignedIndex_idempotent 63 64 (by decide)⟩

/-- The signed diagonal offsets `{-15, …, 15}` of a dense 16×16 block in
ascending (`std::map`) order, as in the C8 scenario. -/
def scenarioK : List Int := (List.range 31).map (fun t => (t : Int) - 15)

/-- C8: with 31 populated diagonals `{-15, …, 15}`, the planner chooses
`n1 = ⌈√31⌉ = 6`, exactly 5 distinct nonzero baby-step rotation keys arise, and
the total number of rotation keys generated is strictly less than 31. -/
theorem bsgs_scenario_31_diagonals :
    chooseN1 31 2048 = 6 ∧
    ((collectSteps scenarioK 6).1.filter (fun i => i != 0)).length = 5 ∧
    (rotationIndices scenarioK 6).length < 31 := by decide

/-- C6 (model side): with zero non-empty diagonals the planner clamp yields
`n1 = 1` and the required rotation-key set is empty. -/
theorem empty_plan_n1_and_keys :
    chooseN1 0 2048 = 1 ∧ rotationIndices [] (chooseN1 0 2048) = [] := by decide

/-! ## The diagonal extractor (`extract_generalized_diagonals`, `utils.hpp` lines 583-612) -/

/-- The `1e-10` threshold used by `extract_generalized_diagonals` to decide
whether a diagonal entry counts as nonzero. -/
def diagThreshold : ℚ := 1 / 10 ^ 10

/-- Generic conditional-store loop: for `i` in `[0, m)`, if `cond i` holds,
store `f i` at position `i` of the accumulator list. -/
def condSetLoop (cond : Nat → Bool) (f : Nat → ℚ) (m : Nat) (init : List ℚ) : List ℚ :=
  (List.range m).foldl (fun diag i => if cond i then diag.set i (f i) else diag) init

/-- The inner loop of `extract_generalized_diagonals`: starting from an
all-zero vector of length `n` (`std::vector<double> diag(numSlots, 0.0)`),
for each `i < d` with `j = (i + k) % n < d`, store `M[i][j]` at position `i`. -/
def buildDiag (M : Nat → Nat → ℚ) (n d k : Nat) : List ℚ :=
  condSetLoop (fun i => decide ((i + k) % n < d)) (fun i => M i ((i + k) % n)) d
    (List.replicate n 0)

/-- The `hasNonZero` flag of `extract_generalized_diagonals`: some entry stored
on the diagonal exceeds `1e-10` in absolute value. -/
def diagHasNonZero (M : Nat → Nat → ℚ) (n d k : Nat) : Bool :=
  (List.range d).any (fun i =>
    decide ((i + k) % n < d) && decide (diagThreshold < |M i ((i + k) % n)|))

/-- `extract_generalized_diagonals` from `utils.hpp` (lines 583-612): the map
from each offset `k ∈ [0, n)` whose diagonal has an entry of absolute value
greater than `1e-10` to its diagonal vector (`n = M.rows = numSlots`,
`d = actualDim`).  A `std::map<int, ...>` is modelled as the ascending
association list of its entries. -/
def extract_generalized_diagonals (M : Nat → Nat → ℚ) (n d : Nat) :
    List (Nat × List ℚ) :=
  ((List.range n).filter (fun k => diagHasNonZero M n d k)).map
    (fun k => (k, buildDiag M n d k))

theorem condSetLoop_length (cond : Nat → Bool) (f : Nat → ℚ) (init : List ℚ) :
    ∀ m, (condSetLoop cond f m init).length = init.length := by
  intro m
  induction m with
  | zero => rfl
  | succ m ih =>
    unfold condSetLoop at ih ⊢
    rw [List.range_succ, List.foldl_append]
    simp only [List.foldl_cons, List.foldl_nil]
    split
    · rw [List.length_set, ih]
    · exact ih


theorem condSetLoop_getD (cond : Nat → Bool) (f : Nat → ℚ) (init : List ℚ) :
    ∀ m, m ≤ init.length → ∀ row,
      (condSetLoop cond f m init).getD row 0 =
        if row < m ∧ cond row then f row else init.getD row 0 := by
  intro m
  induction m with
  | zero =>
    intro _ row
    simp only [Nat.not_lt_zero, false_and, if_false]
    rfl
  | succ m ih =>
    intro hm row
    have hm' : m ≤ init.length := by omega
    have hlen : (condSetLoop cond f m init).length = init.length :=
      condSetLoop_length cond f init m
    unfold condSetLoop
    rw [List.range_succ, List.foldl_append]
    simp only [List.foldl_cons, List.foldl_nil]
    have hbody : (List.range m).foldl
        (fun diag i => if cond i then diag.set i (f i) else diag) init =
        condSetLoop cond f m init := rfl
    rw [hbody]
    by_cases hc : cond m
    · rw [if_pos hc]
      by_cases hrm : row = m
      · subst hrm
        rw [List.getD_eq_getElem?_getD, List.getElem?_set_self (by omega)]
        simp only [Option.getD_some]
        rw [if_pos ⟨by omega, hc⟩]
      · rw [List.getD_eq_getElem?_getD, List.getElem?_set_ne (fun h => hrm h.symm),
          ← List.getD_eq_getElem?_getD, ih hm' row]
        have hiff : (row < m ∧ cond row = true) ↔ (row < m + 1 ∧ cond row = true) := by
          constructor
          · rintro ⟨h1, h2⟩
            exact ⟨by omega, h2⟩
          · rintro ⟨h1, h2⟩
            exact ⟨by omega, h2⟩
        rw [if_congr hiff rfl rfl]
    · rw [if_neg hc, ih hm' row]
      have hiff : (row < m ∧ cond row = true) ↔ (row < m + 1 ∧ cond row = true) := by
        constructor
        · rintro ⟨h1, h2⟩
          exact ⟨by omega, h2⟩
        · rintro ⟨h1, h2⟩
          refine ⟨?_, h2⟩
          rcases Nat.lt_succ_iff_lt_or_eq.mp h1 with h | h
          · exact h
          · subst h
            exact absurd h2 hc
      rw [if_congr hiff rfl rfl]

theorem buildDiag_getD (M : Nat → Nat → ℚ) (n d k row : Nat) (hdn : d ≤ n)
    (hrow : row < n) :
    (buildDiag M n d k).getD row 0 =
      if row < d ∧ (row + k) % n < d then M row ((row + k) % n) else 0 := by
  unfold buildDiag
  rw [condSetLoop_getD _ _ _ d (by rw [List.length_replicate]; exact hdn) row]
  have hrep : (List.replicate n (0:ℚ)).getD row 0 = 0 := by
    rw [List.getD_eq_getElem?_getD, List.getElem?_replicate, if_pos hrow]
    rfl
  rw [hrep]
  by_cases h1 : row < d ∧ (row + k) % n < d
  · rw [if_pos ⟨h1.1, by simpa using h1.2⟩, if_pos h1]
  · rw [if_neg (fun hh => h1 ⟨hh.1, by simpa using hh.2⟩), if_neg h1]

theorem extract_generalized_diagonals_mem (M : Nat → Nat → ℚ) (n d k : Nat)
    (v : List ℚ) :
    (k, v) ∈ extract_generalized_diagonals M n d ↔
      k < n ∧ diagHasNonZero M n d k = true ∧ v = buildDiag M n d k := by
  unfold extract_generalized_diagonals
  rw [List.mem_map]
  constructor
  · rintro ⟨k', hk', heq⟩
    rw [List.mem_filter, List.mem_range] at hk'
    obtain ⟨h1, h2⟩ := Prod.mk.injEq .. ▸ heq
    exact h1 ▸ ⟨hk'.1, hk'.2, h2.symm⟩
  · rintro ⟨h1, h2, h3⟩
    exact ⟨k, List.mem_filter.mpr ⟨List.mem_range.mpr h1, h2⟩, by rw [h3]⟩

theorem diagHasNonZero_iff (M : Nat → Nat → ℚ) (n d k : Nat) :
    diagHasNonZero M n d k = true ↔
      ∃ i, i < d ∧ (i + k) % n < d ∧ diagThreshold < |M i ((i + k) % n)| := by
  unfold diagHasNonZero
  rw [List.any_eq_true]
  constructor
  · rintro ⟨i, hi, hp⟩
    rw [List.mem_range] at hi
    rw [Bool.and_eq_true, decide_eq_true_eq, decide_eq_true_eq] at hp
    exact ⟨i, hi, hp.1, hp.2⟩
  · rintro ⟨i, hi, h1, h2⟩
    refine ⟨i, List.mem_range.mpr hi, ?_⟩
    rw [Bool.and_eq_true, decide_eq_true_eq, decide_eq_true_eq]
    exact ⟨h1, h2⟩

/-- C5 (amended): for every matrix `M` with active `d×d` block (`d ≤ n`), the
extractor contains offset `k ∈ [0, n)` exactly when the cyclic diagonal
`col ≡ row + k (mod n)` has at least one element of absolute value greater than
the source's `1e-10` threshold within the active block, and the vector stored
for such `k` satisfies `diag[row] = M[row][(row+k) mod n]` at in-block
positions and `0` everywhere else. -/
theorem extract_generalized_diagonals_correct (M : Nat → Nat → ℚ) (n d k : Nat)
    (hdn : d ≤ n) :
    ((∃ v, (k, v) ∈ extract_generalized_diagonals M n d) ↔
      k < n ∧ ∃ i, i < d ∧ (i + k) % n < d ∧ diagThreshold < |M i ((i + k) % n)|) ∧
    (∀ v, (k, v) ∈ extract_generalized_diagonals M n d → ∀ row, row < n →
      v.getD row 0 =
        if row < d ∧ (row + k) % n < d then M row ((row + k) % n) else 0) := by
  constructor
  · constructor
    · rintro ⟨v, hv⟩
      obtain ⟨h1, h2, -⟩ := (extract_generalized_diagonals_mem M n d k v).mp hv
      exact ⟨h1, (diagHasNonZero_iff M n d k).mp h2⟩
    · rintro ⟨h1, h2⟩
      exact ⟨buildDiag M n d k, (extract_generalized_diagonals_mem M n d k _).mpr
        ⟨h1, (diagHasNonZero_iff M n d k).mpr h2, rfl⟩⟩
  · intro v hv row hrow
    obtain ⟨-, -, h3⟩ := (extract_generalized_diagonals_mem M n d k v).mp hv
    rw [h3, buildDiag_getD M n d k row hdn hrow]

/-- A matrix whose only nonzero entry is `1e-11`: nonzero but below the
extractor's `1e-10` threshold. -/
def tinyMatrix : Nat → Nat → ℚ := fun i j => if i = 0 ∧ j = 0 then 1 / 10 ^ 11 else 0

/-- C5 counterexample: with `n = 2`, `d = 1`, the main diagonal of `tinyMatrix`
has a nonzero element inside the active block (`M[0][0] = 1e-11 ≠ 0`), yet the
extractor omits offset `k = 0` — "has at least one nonzero element" does not
characterize the extracted offsets; the `1e-10` threshold does. -/
theorem extract_misses_small_nonzero :
    (0 < 2 ∧ ∃ i, i < 1 ∧ (i + 0) % 2 < 1 ∧ tinyMatrix i ((i + 0) % 2) ≠ 0) ∧
    ¬ (∃ v, (0, v) ∈ extract_generalized_diagonals tinyMatrix 2 1) := by
  constructor
  · exact ⟨by norm_num, 0, by norm_num, by norm_num, by norm_num [tinyMatrix]⟩
  · rintro ⟨v, hv⟩
    obtain ⟨-, h2, -⟩ := (extract_generalized_diagonals_mem tinyMatrix 2 1 0 v).mp hv
    obtain ⟨i, hi, -, hgt⟩ := (diagHasNonZero_iff tinyMatrix 2 1 0).mp h2
    interval_cases i
    rw [show tinyMatrix 0 ((0 + 0) % 2) = 1 / 10 ^ 11 by norm_num [tinyMatrix],
      abs_of_nonneg (by norm_num)] at hgt
    exact absurd hgt (by norm_num [diagThreshold])

/-- A 2×2 identity-like matrix used as the witness input for C5. -/
def unitMatrix : Nat → Nat → ℚ := fun i j => if i = j then 1 else 0

/-- Witness for the amended C5 at `M = unitMatrix`, `n = 2`, `d = 1`, `k = 0`. -/
theorem extract_generalized_diagonals_correct_witness :
    (1 ≤ 2) ∧
    (((∃ v, (0, v) ∈ extract_generalized_diagonals unitMatrix 2 1) ↔
      0 < 2 ∧ ∃ i, i < 1 ∧ (i + 0) % 2 < 1 ∧
        diagThreshold < |unitMatrix i ((i + 0) % 2)|) ∧
    (∀ v, (0, v) ∈ extract_generalized_diagonals unitMatrix 2 1 → ∀ row, row < 2 →
      v.getD row 0 =
        if row < 1 ∧ (row + 0) % 2 < 1 then unitMatrix row ((row + 0) % 2) else 0)) :=
  ⟨by decide, extract_generalized_diagonals_correct unitMatrix 2 1 0 (by decide)⟩

/-! ## Key-set minimality (C4) -/

theorem mem_setInsert (x y : Int) (l : List Int) :
    y ∈ setInsert x l ↔ y = x ∨ y ∈ l := by
  induction l with
  | nil =>
    simp [setInsert]
  | cons z zs ih =>
    unfold setInsert
    split_ifs with h1 h2
    · simp only [List.mem_cons]
    · subst h2
      simp only [List.mem_cons]
      tauto
    · simp only [List.mem_cons, ih]
      tauto

theorem collectSteps_loop_mem (n1 : Int) (K : List Int) :
    ∀ (st : List Int × List Int) (x : Int),
      (x ∈ (K.foldl (stepInsert n1) st).1 ↔
        x ∈ st.1 ∨ ∃ k ∈ K, x = k - floorDivision k n1 * n1) ∧
      (x ∈ (K.foldl (stepInsert n1) st).2 ↔
        x ∈ st.2 ∨ ∃ k ∈ K, x = floorDivision k n1) := by
  induction K with
  | nil =>
    intro st x
    simp
  | cons k ks ih =>
    intro st x
    rw [List.foldl_cons]
    obtain ⟨ih1, ih2⟩ := ih (stepInsert n1 st k) x
    constructor
    · rw [ih1]
      show x ∈ setInsert (k - floorDivision k n1 * n1) st.1 ∨ _ ↔ _
      rw [mem_setInsert]
      simp only [List.mem_cons]
      constructor
      · rintro ((h | h) | ⟨k', hk', h⟩)
        · exact Or.inr ⟨k, Or.inl rfl, h⟩
        · exact Or.inl h
        · exact Or.inr ⟨k', Or.inr hk', h⟩
      · rintro (h | ⟨k', (hk' | hk'), h⟩)
        · exact Or.inl (Or.inr h)
        · exact Or.inl (Or.inl (hk' ▸ h))
        · exact Or.inr ⟨k', hk', h⟩
    · rw [ih2]
      show x ∈ setInsert (floorDivision k n1) st.2 ∨ _ ↔ _
      rw [mem_setInsert]
      simp only [List.mem_cons]
      constructor
      · rintro ((h | h) | ⟨k', hk', h⟩)
        · exact Or.inr ⟨k, Or.inl rfl, h⟩
        · exact Or.inl h
        · exact Or.inr ⟨k', Or.inr hk', h⟩
      · rintro (h | ⟨k', (hk' | hk'), h⟩)
        · exact Or.inl (Or.inr h)
        · exact Or.inl (Or.inl (hk' ▸ h))
        · exact Or.inr ⟨k', hk', h⟩

theorem collectSteps_fst_mem (K : List Int) (n1 x : Int) :
    x ∈ (collectSteps K n1).1 ↔ ∃ k ∈ K, x = k - floorDivision k n1 * n1 := by
  unfold collectSteps
  rw [(collectSteps_loop_mem n1 K ([], []) x).1]
  simp

theorem collectSteps_snd_mem (K : List Int) (n1 x : Int) :
    x ∈ (collectSteps K n1).2 ↔ ∃ k ∈ K, x = floorDivision k n1 := by
  unfold collectSteps
  rw [(collectSteps_loop_mem n1 K ([], []) x).2]
  simp

theorem foldl_setInsertIf_mem (p : Int → Prop) [DecidablePred p] (g : Int → Int)
    (l : List Int) :
    ∀ (init : List Int) (x : Int),
      x ∈ l.foldl (fun r y => if p y then setInsert (g y) r else r) init ↔
        x ∈ init ∨ ∃ y ∈ l, p y ∧ x = g y := by
  induction l with
  | nil =>
    intro init x
    simp
  | cons z zs ih =>
    intro init x
    rw [List.foldl_cons, ih]
    by_cases hz : p z
    · rw [if_pos hz, mem_setInsert]
      simp only [List.mem_cons]
      constructor
      · rintro ((h | h) | ⟨y, hy, hpy, h⟩)
        · exact Or.inr ⟨z, Or.inl rfl, hz, h⟩
        · exact Or.inl h
        · exact Or.inr ⟨y, Or.inr hy, hpy, h⟩
      · rintro (h | ⟨y, (hy | hy), hpy, h⟩)
        · exact Or.inl (Or.inr h)
        · exact Or.inl (Or.inl (hy ▸ h))
        · exact Or.inr ⟨y, hy, hpy, h⟩
    · rw [if_neg hz]
      simp only [List.mem_cons]
      constructor
      · rintro (h | ⟨y, hy, hpy, h⟩)
        · exact Or.inl h
        · exact Or.inr ⟨y, Or.inr hy, hpy, h⟩
      · rintro (h | ⟨y, (hy | hy), hpy, h⟩)
        · exact Or.inl h
        · exact absurd (hy ▸ hpy) hz
        · exact Or.inr ⟨y, hy, hpy, h⟩

/-- C4: for every set of populated signed diagonal offsets `K`, the set of
rotation amounts for which keys are generated is exactly
`{i : i a used baby step, i ≠ 0} ∪ {n1·j : j a used giant step, j ≠ 0}`, where
`(j, i)` ranges over the floor-division decompositions of the offsets in `K`
only — never over the full BSGS grid. -/
theorem rotationIndices_minimal (K : List Int) (n1 x : Int) :
    x ∈ rotationIndices K n1 ↔
      ((∃ k ∈ K, x = k - floorDivision k n1 * n1) ∧ x ≠ 0) ∨
      (∃ k ∈ K, floorDivision k n1 ≠ 0 ∧ x = n1 * floorDivision k n1) := by
  unfold rotationIndices
  rw [foldl_setInsertIf_mem (fun j => j ≠ 0) (fun j => n1 * j),
    foldl_setInsertIf_mem (fun i => i ≠ 0) (fun i => i)]
  simp only [List.not_mem_nil, false_or]
  constructor
  · rintro (⟨i, hi, hne, rfl⟩ | ⟨j, hj, hne, rfl⟩)
    · exact Or.inl ⟨(collectSteps_fst_mem K n1 x).mp hi, hne⟩
    · obtain ⟨k, hk, rfl⟩ := (collectSteps_snd_mem K n1 j).mp hj
      exact Or.inr ⟨k, hk, hne, rfl⟩
  · rintro (⟨hmem, hne⟩ | ⟨k, hk, hne, rfl⟩)
    · exact Or.inl ⟨x, (collectSteps_fst_mem K n1 x).mpr hmem, hne, rfl⟩
    · exact Or.inr ⟨floorDivision k n1,
        (collectSteps_snd_mem K n1 _).mpr ⟨k, hk, rfl⟩, hne, rfl⟩

/-! ## `rotateVectorDown` (`utils.hpp` lines 615-625) and C10 -/

/-- Conversion of a C++ `int` value to `std::size_t`: wraparound modulo `2^64`. -/
def toUInt64 (x : Int) : Nat := (x % (2 ^ 64 : Int)).toNat

/-- Conversion of a `std::size_t` value to a 32-bit C++ `int`
(two's-complement wraparound, the behaviour of every mainstream ABI). -/
def toInt32 (u : Nat) : Int :=
  if u % 2 ^ 32 < 2 ^ 31 then ((u % 2 ^ 32 : Nat) : Int)
  else ((u % 2 ^ 32 : Nat) : Int) - 2 ^ 32

/-- The write loop of `rotateVectorDown`: `result[(i + positions) % n] = vec[i]`
for `i` in `[0, n)`, starting from `std::vector<double> result(n)`
(value-initialized to zero), with the `std::size_t` sum reduced modulo `2^64`. -/
def rotLoop (vec : List ℚ) (p n : Nat) : List ℚ :=
  (List.range n).foldl
    (fun res i => res.set (((i + p) % 2 ^ 64) % n) (vec.getD i 0))
    (List.replicate n 0)

/-- The tail of `rotateVectorDown` after the first statement: `u` is the value
of the C++ `int` variable `positions` right after `positions = positions % n`
(a `std::size_t` value that gets narrowed to `int` on assignment); the
`if (positions < 0) positions += n` adjustment then runs through the same
`int`/`std::size_t` conversions. -/
def rotCore (vec : List ℚ) (u : Nat) : List ℚ :=
  let p1 : Int := toInt32 u
  let p2 : Int := if p1 < 0 then toInt32 ((toUInt64 p1 + vec.length) % 2 ^ 64) else p1
  rotLoop vec (toUInt64 p2) vec.length

/-- `rotateVectorDown` from `utils.hpp` (lines 615-625).  `positions` is a C++
`int` and `n = vec.size()` a `std::size_t`, so `positions % n` first converts
`positions` to `std::size_t` — wraparound modulo `2^64` — and takes the
unsigned remainder. -/
def rotateVectorDown (vec : List ℚ) (positions : Int) : List ℚ :=
  rotCore vec (toUInt64 positions % vec.length)

/-- C10: for every non-empty vector whose length divides `2^64` (every
power-of-two length in particular) and every integer shift `p`, including
negative `p`, `rotateVectorDown v p` equals
`rotateVectorDown v (((p mod n) + n) mod n)`: the unsigned 64-bit wraparound
coincides with the mathematical modulus because `n` divides `2^64`. -/
theorem rotateVectorDown_wraparound (v : List ℚ) (p : Int) (hne : v ≠ [])
    (hdvd : v.length ∣ 2 ^ 64) :
    rotateVectorDown v p =
      rotateVectorDown v
        ((p % (v.length : Int) + (v.length : Int)) % (v.length : Int)) := by
  have hn : 0 < v.length := List.length_pos.mpr hne
  have hnZ : (0:Int) < (v.length : Int) := by exact_mod_cast hn
  have hdvdZ : ((v.length : Int)) ∣ (2 ^ 64 : Int) := by exact_mod_cast hdvd
  have hle : v.length ≤ 2 ^ 64 := Nat.le_of_dvd (by norm_num) hdvd
  have hleZ : ((v.length : Int)) ≤ 2 ^ 64 := by exact_mod_cast hle
  have hq : (p % (v.length : Int) + (v.length : Int)) % (v.length : Int) =
      p % (v.length : Int) := by
    conv_lhs =>
      rw [show p % (v.length : Int) + (v.length : Int) =
        p % (v.length : Int) + (v.length : Int) * 1 by ring]
    rw [Int.add_mul_emod_self_left]
    exact Int.emod_emod_of_dvd p (dvd_refl _)
  have hq0 : 0 ≤ p % (v.length : Int) := Int.emod_nonneg p (by omega)
  have hqlt : p % (v.length : Int) < (v.length : Int) := Int.emod_lt_of_pos p hnZ
  have key : toUInt64 p % v.length = toUInt64 (p % (v.length : Int)) % v.length := by
    have lhs : ((toUInt64 p % v.length : Nat) : Int) = p % (v.length : Int) := by
      unfold toUInt64
      rw [Int.natCast_mod, Int.toNat_of_nonneg (Int.emod_nonneg p (by positivity))]
      exact Int.emod_emod_of_dvd p hdvdZ
    have rhs : ((toUInt64 (p % (v.length : Int)) % v.length : Nat) : Int) =
        p % (v.length : Int) := by
      unfold toUInt64
      rw [Int.emod_eq_of_lt hq0 (by omega), Int.natCast_mod,
        Int.toNat_of_nonneg hq0]
      exact Int.emod_eq_of_lt hq0 hqlt
    exact_mod_cast lhs.trans rhs.symm
  unfold rotateVectorDown
  rw [hq, key]

/-- Witness for C10 at `v = [1, 2, 3, 4]`, `p = -1`. -/
theorem rotateVectorDown_wraparound_witness :
    (([1, 2, 3, 4] : List ℚ) ≠ [] ∧ ([1, 2, 3, 4] : List ℚ).length ∣ 2 ^ 64) ∧
    rotateVectorDown ([1, 2, 3, 4] : List ℚ) (-1) =
      rotateVectorDown ([1, 2, 3, 4] : List ℚ)
        (((-1) % ((([1, 2, 3, 4] : List ℚ).length : Int)) +
            ((([1, 2, 3, 4] : List ℚ).length : Int))) %
          ((([1, 2, 3, 4] : List ℚ).length : Int))) :=
  ⟨⟨List.cons_ne_nil 1 [2, 3, 4], by norm_num⟩,
    rotateVectorDown_wraparound [1, 2, 3, 4] (-1) (List.cons_ne_nil 1 [2, 3, 4])
      (by norm_num)⟩

/-! ## Key lifecycle during evaluation (C9) -/

/-- Key-store operations issued against the crypto context during evaluation:
`DeserializeEvalAutomorphismKey` (load a key) and `ClearEvalAutomorphismKeys`
(clear every resident key). -/
inductive KeyEvent where
  | load (amount : Int)
  | clear
deriving DecidableEq

/-- `getBabyRotation` from `examples/bsgs-diagonal-method.cpp` (lines 285-304):
on the first use of baby index `i` the rotation key for `i` is loaded, the
rotation computed, and the keys cleared; later uses hit the cache and touch no
keys.  Returns the emitted events and the updated computed-index set. -/
def babyStepEvents (i : Nat) (computed : List Nat) : List KeyEvent × List Nat :=
  if i ∈ computed then ([], computed)
  else ([KeyEvent.load (i : Int), KeyEvent.clear], i :: computed)

/-- One giant block of the evaluation loop (lines 314-373): visit baby indices
`i = 0, …, n1-1`; for each populated diagonal `k = j*n1 + i`, obtain the baby
rotation (index 0 uses the input ciphertext directly and is pre-seeded in the
cache); afterwards, if the block is non-empty and `j ≠ 0`, load the key for
`n1*j`, rotate the block sum, and clear. -/
def giantBlockEvents (K : List Int) (n1 j : Int) (computed : List Nat) :
    List KeyEvent × List Nat × Bool :=
  let inner := (List.range n1.toNat).foldl
    (fun (s : List KeyEvent × List Nat × Bool) (i : Nat) =>
      if j * n1 + (i : Int) ∈ K then
        let b := babyStepEvents i s.2.1
        (s.1 ++ b.1, b.2, true)
      else s) ([], computed, false)
  if inner.2.2 ∧ j ≠ 0 then
    (inner.1 ++ [KeyEvent.load (n1 * j), KeyEvent.clear], inner.2.1, inner.2.2)
  else inner

/-- The key-event trace of one BSGS evaluation run (lines 277-373): giant steps
processed in ascending (`std::set`) order, the baby cache pre-seeded with
index 0 (`babyRotationCache[0] = cipherInput`). -/
def evalEvents (K : List Int) (n1 : Int) : List KeyEvent :=
  ((collectSteps K n1).2.foldl
    (fun (st : List KeyEvent × List Nat) (j : Int) =>
      let blk := giantBlockEvents K n1 j st.2
      (st.1 ++ blk.1, blk.2.1)) ([], [0])).1

/-- The keys resident in the crypto context after a sequence of events:
`load` adds a key, `clear` removes all of them. -/
def residentAfter (t : List KeyEvent) : List Int :=
  t.foldl (fun r e => match e with
    | KeyEvent.load a => a :: r
    | KeyEvent.clear => []) []

/-- Traces consisting of consecutive complete `load amount; clear` pairs. -/
inductive Paired : List KeyEvent → Prop where
  | nil : Paired []
  | pair (a : Int) {rest : List KeyEvent} : Paired rest →
      Paired (KeyEvent.load a :: KeyEvent.clear :: rest)

theorem Paired.append {s t : List KeyEvent} (hs : Paired s) (ht : Paired t) :
    Paired (s ++ t) := by
  induction hs with
  | nil => exact ht
  | pair a _ ih => exact Paired.pair a ih

theorem babyStepEvents_paired (i : Nat) (computed : List Nat) :
    Paired (babyStepEvents i computed).1 := by
  unfold babyStepEvents
  split
  · exact Paired.nil
  · exact Paired.pair _ Paired.nil

theorem giantBlockEvents_inner_paired (K : List Int) (n1 j : Int) :
    ∀ (l : List Nat) (s : List KeyEvent × List Nat × Bool), Paired s.1 →
      Paired ((l.foldl
        (fun (s : List KeyEvent × List Nat × Bool) (i : Nat) =>
          if j * n1 + (i : Int) ∈ K then
            let b := babyStepEvents i s.2.1
            (s.1 ++ b.1, b.2, true)
          else s) s).1) := by
  intro l
  induction l with
  | nil => exact fun s hs => hs
  | cons i is ih =>
    intro s hs
    rw [List.foldl_cons]
    split
    · exact ih _ (hs.append (babyStepEvents_paired i s.2.1))
    · exact ih s hs

theorem giantBlockEvents_paired (K : List Int) (n1 j : Int) (computed : List Nat) :
    Paired (giantBlockEvents K n1 j computed).1 := by
  have hinner := giantBlockEvents_inner_paired K n1 j (List.range n1.toNat)
    ([], computed, false) Paired.nil
  unfold giantBlockEvents
  dsimp only
  split
  · exact hinner.append (Paired.pair _ Paired.nil)
  · exact hinner

theorem evalEvents_paired (K : List Int) (n1 : Int) : Paired (evalEvents K n1) := by
  unfold evalEvents
  generalize (collectSteps K n1).2 = gs
  have main : ∀ (l : List Int) (st : List KeyEvent × List Nat), Paired st.1 →
      Paired ((l.foldl
        (fun (st : List KeyEvent × List Nat) (j : Int) =>
          let blk := giantBlockEvents K n1 j st.2
          (st.1 ++ blk.1, blk.2.1)) st).1) := by
    intro l
    induction l with
    | nil => exact fun st hst => hst
    | cons j js ih =>
      intro st hst
      rw [List.foldl_cons]
      exact ih _ (hst.append (giantBlockEvents_paired K n1 j st.2))
  exact main gs ([], [0]) Paired.nil

theorem paired_prefix_resident {t : List KeyEvent} (hp : Paired t) :
    ∀ t₁ t₂, t = t₁ ++ t₂ → (residentAfter t₁).length ≤ 1 := by
  induction hp with
  | nil =>
    intro t₁ t₂ h
    obtain ⟨h1, -⟩ := List.append_eq_nil.mp h.symm
    subst h1
    exact Nat.zero_le 1
  | pair a hrest ih =>
    intro t₁ t₂ h
    cases t₁ with
    | nil => exact Nat.zero_le 1
    | cons e t₁' =>
      cases t₁' with
      | nil =>
        cases e with
        | load b => exact Nat.le_refl 1
        | clear => exact Nat.zero_le 1
      | cons e' t₁'' =>
        rw [List.cons_append, List.cons_append] at h
        injection h with h1 h2
        injection h2 with h3 h4
        subst h1
        subst h3
        have hres : residentAfter (KeyEvent.load a :: KeyEvent.clear :: t₁'') =
            residentAfter t₁'' := rfl
        rw [hres]
        exact ih t₁'' t₂ h4

/-- C9: throughout every BSGS evaluation run — for every populated offset set
`K` and every `n1` — at most one rotation key is resident in the crypto
context at any time: after every prefix of the run's key-event trace, the
resident key set has at most one element (each key is loaded immediately
before its use and cleared immediately after). -/
theorem single_resident_key (K : List Int) (n1 : Int) (t₁ t₂ : List KeyEvent)
    (h : evalEvents K n1 = t₁ ++ t₂) :
    (residentAfter t₁).length ≤ 1 :=
  paired_prefix_resident (evalEvents_paired K n1) t₁ t₂ h

/-- Witness for C9 with `K = {-1, 1}`, `n1 = 2`, at the prefix that has just
loaded the giant-step key `-2`. -/
theorem single_resident_key_witness :
    (evalEvents [-1, 1] 2 =
      [KeyEvent.load 1, KeyEvent.clear, KeyEvent.load (-2)] ++ [KeyEvent.clear]) ∧
    (residentAfter [KeyEvent.load 1, KeyEvent.clear, KeyEvent.load (-2)]).length ≤ 1 :=
  ⟨by decide, single_resident_key [-1, 1] 2
    [KeyEvent.load 1, KeyEvent.clear, KeyEvent.load (-2)] [KeyEvent.clear] (by decide)⟩

/-! ## The BSGS / simple diagonal evaluation refinement (C2)

The homomorphic capabilities (`EvalAdd`, `EvalMult`, `EvalRotate`,
`MakeCKKSPackedPlaintext`) are an opaque collaborator; they are modelled as an
abstract structure.  The claim's assumed laws relate rotation to addition,
composition, and plaintext multiplication, where "the plaintext cyclically
shifted by `m`" is the concrete slot shift `cyclicShiftUp`. -/

/-- The slot-wise effect of `EvalRotate` by `m` on an encoded vector: slot `s`
of the result holds entry `(s + m) mod n` of the input. -/
def cyclicShiftUp (m : Int) (v : List ℚ) : List ℚ :=
  (List.range v.length).map
    (fun (s : Nat) => v.getD ((((s : Int) + m) % (v.length : Int)).toNat) 0)

/-- The homomorphic-encryption capabilities consumed by both evaluation
methods: ciphertext addition, ciphertext-by-plaintext multiplication, rotation,
and plaintext encoding. -/
structure HECaps (C : Type) (P : Type) where
  add : C → C → C
  mult : C → P → C
  rot : Int → C → C
  encode : List ℚ → P

/-- Assumed law: `Rotate` distributes over `Add`. -/
def RotAddLaw {C P : Type} (caps : HECaps C P) : Prop :=
  ∀ m a b, caps.rot m (caps.add a b) = caps.add (caps.rot m a) (caps.rot m b)

/-- Assumed law: `Rotate(m) ∘ Rotate(i) = Rotate(m + i)`. -/
def RotRotLaw {C P : Type} (caps : HECaps C P) : Prop :=
  ∀ m i c, caps.rot m (caps.rot i c) = caps.rot (m + i) c

/-- Assumed law: rotating a ciphertext-plaintext product by `m` equals the
product of the rotated ciphertext and the plaintext cyclically shifted by `m`. -/
def RotMultLaw {C P : Type} (caps : HECaps C P) : Prop :=
  ∀ m c v, caps.rot m (caps.mult c (caps.encode v)) =
    caps.mult (caps.rot m c) (caps.encode (cyclicShiftUp m v))

/-- Associativity of homomorphic addition (slot-wise addition in CKKS). -/
def AddAssocLaw {C P : Type} (caps : HECaps C P) : Prop :=
  ∀ a b c, caps.add (caps.add a b) c = caps.add a (caps.add b c)

/-- The pre-shift amount of `examples/bsgs-diagonal-method.cpp` (lines 188-189):
`(n1 * j) % numSlots` (C++ `%` on `int` is `Int.tmod`), made nonnegative. -/
def preshiftAmount (numSlots n1 j : Int) : Int :=
  let s := (n1 * j).tmod numSlots
  if s < 0 then s + numSlots else s

/-- The pre-shifted diagonal for offset `k` (lines 175-194): the raw diagonal
vector rotated down by the giant-step amount of `k`'s decomposition. -/
def preshiftedDiagonal (diags : Int → List ℚ) (numSlots n1 k : Int) : List ℚ :=
  rotateVectorDown (diags k) (preshiftAmount numSlots n1 (floorDivision k n1))

/-- The C++ `first` accumulation flag: the first term assigns, later terms are
combined with `EvalAdd`. -/
def accAdd {C P : Type} (caps : HECaps C P) (acc : Option C) (x : C) : Option C :=
  match acc with
  | none => some x
  | some r => some (caps.add r x)

/-- The baby rotation used for index `i` (lines 330): the input itself for
`i = 0`, otherwise `EvalRotate(input, i)` (computed once and cached —
the cache returns the same value, so it is dropped from the value-level
model). -/
def babyOf {C P : Type} (caps : HECaps C P) (input : C) (i : Nat) : C :=
  if (i : Int) = 0 then input else caps.rot (i : Int) input

/-- One term of a giant block (lines 330-333): the baby-rotated input times the
pre-shifted diagonal plaintext of `k = j*n1 + i`. -/
def blockTerm {C P : Type} (caps : HECaps C P) (diags : Int → List ℚ)
    (numSlots n1 : Int) (input : C) (j : Int) (i : Nat) : C :=
  caps.mult (babyOf caps input i)
    (caps.encode (preshiftedDiagonal diags numSlots n1 (j * n1 + (i : Int))))

/-- One term of the simple diagonal method
(`examples/simple-diagonal-method.cpp` lines 236-262): `Rotate(input, k)` — the
input itself for `k = 0` — times the unshifted diagonal plaintext. -/
def simpleTerm {C P : Type} (caps : HECaps C P) (diags : Int → List ℚ)
    (input : C) (k : Int) : C :=
  caps.mult (if k = 0 then input else caps.rot k input) (caps.encode (diags k))

/-- The inner loop of the BSGS evaluation (lines 316-345): accumulate the terms
of giant block `j` over baby indices `i ∈ [0, n1)` whose diagonal `j*n1 + i` is
populated; `none` models the still-unset `giantBlockSum`. -/
def giantBlockSum {C P : Type} (caps : HECaps C P) (K : List Int)
    (diags : Int → List ℚ) (numSlots n1 : Int) (input : C) (j : Int) : Option C :=
  (List.range n1.toNat).foldl
    (fun (acc : Option C) (i : Nat) =>
      if j * n1 + (i : Int) ∈ K then
        accAdd caps acc (blockTerm caps diags numSlots n1 input j i)
      else acc) none

/-- The BSGS evaluation loop (lines 306-373): process giant steps in ascending
order; skip empty blocks; rotate a non-empty block sum by `n1*j` when `j ≠ 0`;
accumulate block sums into the overall result. -/
def bsgsEval {C P : Type} (caps : HECaps C P) (K : List Int)
    (diags : Int → List ℚ) (numSlots n1 : Int) (input : C) : Option C :=
  ((collectSteps K n1).2).foldl
    (fun (result : Option C) (j : Int) =>
      match giantBlockSum caps K diags numSlots n1 input j with
      | none => result
      | some blockSum =>
          accAdd caps result (if j ≠ 0 then caps.rot (n1 * j) blockSum else blockSum))
    none

/-- The simple diagonal method loop (`examples/simple-diagonal-method.cpp`
lines 229-271) applied to the diagonal map with keys `K` in ascending order:
`Σ_k Mult(Rotate(input, k), diagonal_k)`. -/
def simpleEval {C P : Type} (caps : HECaps C P) (K : List Int)
    (diags : Int → List ℚ) (input : C) : Option C :=
  K.foldl (fun (result : Option C) (k : Int) =>
    accAdd caps result (simpleTerm caps diags input k)) none

/-- A degenerate capability instance: rotation is the identity, multiplication
ignores the plaintext, and "addition" is subtraction.  It satisfies all three
assumed rotation laws, but its addition is not associative. -/
def subCaps : HECaps Int Unit where
  add := fun a b => a - b
  mult := fun c _ => c
  rot := fun _ c => c
  encode := fun _ => ()

/-- C2 counterexample: under the three assumed rotation laws alone the claimed
equivalence fails.  `subCaps` satisfies all three laws, yet on the populated
offsets `{0, 1, 2, 3}` (with the planner's `n1 = ⌈√4⌉ = 2`) the BSGS
evaluation and the simple diagonal method disagree, because the two methods
associate the homomorphic additions differently: associativity of `Add` is
also required. -/
theorem bsgs_ne_simple_without_assoc :
    RotAddLaw subCaps ∧ RotRotLaw subCaps ∧ RotMultLaw subCaps ∧
    bsgsEval subCaps [0, 1, 2, 3] (fun _ => [0, 0, 0, 0]) 4 (chooseN1 4 4) 1 ≠
      simpleEval subCaps [0, 1, 2, 3] (fun _ => [0, 0, 0, 0]) 1 := by
  refine ⟨fun m a b => rfl, fun m i c => rfl, fun m c v => rfl, ?_⟩
  decide

/-! ### Characterizing `rotateVectorDown` for in-range shifts -/

/-- Generic unconditional store loop: for `i` in `[0, m)`, store `f i` at
position `g i`. -/
def setLoop (g : Nat → Nat) (f : Nat → ℚ) (m : Nat) (init : List ℚ) : List ℚ :=
  (List.range m).foldl (fun res i => res.set (g i) (f i)) init

theorem setLoop_length (g : Nat → Nat) (f : Nat → ℚ) (init : List ℚ) :
    ∀ m, (setLoop g f m init).length = init.length := by
  intro m
  induction m with
  | zero => rfl
  | succ m ih =>
    unfold setLoop at ih ⊢
    rw [List.range_succ, List.foldl_append]
    simp only [List.foldl_cons, List.foldl_nil]
    rw [List.length_set, ih]

theorem setLoop_getD (g : Nat → Nat) (f : Nat → ℚ) (init : List ℚ) :
    ∀ m, (∀ i, i < m → g i < init.length) →
      (∀ i₁ i₂, i₁ < m → i₂ < m → g i₁ = g i₂ → i₁ = i₂) →
      ∀ i, i < m → (setLoop g f m init).getD (g i) 0 = f i := by
  intro m
  induction m with
  | zero => exact fun _ _ i hi => absurd hi (Nat.not_lt_zero i)
  | succ m ih =>
    intro hlt hinj i hi
    have hlen : (setLoop g f m init).length = init.length :=
      setLoop_length g f init m
    unfold setLoop
    rw [List.range_succ, List.foldl_append]
    simp only [List.foldl_cons, List.foldl_nil]
    have hbody : (List.range m).foldl (fun res i => res.set (g i) (f i)) init =
        setLoop g f m init := rfl
    rw [hbody]
    by_cases him : i = m
    · subst him
      rw [List.getD_eq_getElem?_getD,
        List.getElem?_set_self (by rw [hlen]; exact hlt i hi)]
      rfl
    · have hi' : i < m := by omega
      have hne : g m ≠ g i := fun h =>
        him (hinj i m (by omega) (by omega) h.symm)
      rw [List.getD_eq_getElem?_getD, List.getElem?_set_ne hne,
        ← List.getD_eq_getElem?_getD]
      exact ih (fun i' hi' => hlt i' (by omega))
        (fun i₁ i₂ h₁ h₂ => hinj i₁ i₂ (by omega) (by omega)) i hi'

theorem rotLoop_length (v : List ℚ) (p n : Nat) : (rotLoop v p n).length = n := by
  have h : rotLoop v p n =
      setLoop (fun i => ((i + p) % 2 ^ 64) % n) (fun i => v.getD i 0) n
        (List.replicate n 0) := rfl
  rw [h, setLoop_length, List.length_replicate]

theorem rotLoop_getD (v : List ℚ) (p : Nat) (hp : p < v.length)
    (hle : v.length ≤ 2 ^ 31) (t : Nat) (ht : t < v.length) :
    (rotLoop v p v.length).getD t 0 =
      v.getD ((t + (v.length - p)) % v.length) 0 := by
  have hn : 0 < v.length := by omega
  have hsmall : ∀ i, i < v.length → ((i + p) % 2 ^ 64) % v.length =
      (i + p) % v.length := by
    intro i hi
    rw [Nat.mod_eq_of_lt (show i + p < 2 ^ 64 by omega)]
  have hrot : rotLoop v p v.length =
      setLoop (fun i => ((i + p) % 2 ^ 64) % v.length) (fun i => v.getD i 0)
        v.length (List.replicate v.length 0) := rfl
  have hi₀ : (t + (v.length - p)) % v.length < v.length := Nat.mod_lt _ hn
  have hkey : ((((t + (v.length - p)) % v.length) + p) % 2 ^ 64) % v.length = t := by
    rw [Nat.mod_eq_of_lt (show ((t + (v.length - p)) % v.length) + p < 2 ^ 64 by
      have := Nat.mod_lt (t + (v.length - p)) hn
      omega)]
    rw [Nat.mod_add_mod]
    rw [show t + (v.length - p) + p = t + v.length by omega]
    rw [Nat.add_mod_right]
    exact Nat.mod_eq_of_lt ht
  have := setLoop_getD (fun i => ((i + p) % 2 ^ 64) % v.length)
    (fun i => v.getD i 0) (List.replicate v.length 0) v.length
    (fun i hi => by rw [List.length_replicate]; exact Nat.mod_lt _ hn)
    (fun i₁ i₂ h₁ h₂ hg => by
      have hg' : (i₁ + p) % 2 ^ 64 % v.length = (i₂ + p) % 2 ^ 64 % v.length := hg
      rw [hsmall i₁ h₁, hsmall i₂ h₂] at hg'
      have hmodeq : i₁ ≡ i₂ [MOD v.length] :=
        Nat.ModEq.add_right_cancel' p hg'
      have : i₁ % v.length = i₂ % v.length := hmodeq
      rwa [Nat.mod_eq_of_lt h₁, Nat.mod_eq_of_lt h₂] at this)
    ((t + (v.length - p)) % v.length) hi₀
  rw [hrot]
  calc (setLoop (fun i => ((i + p) % 2 ^ 64) % v.length) (fun i => v.getD i 0)
        v.length (List.replicate v.length 0)).getD t 0
      = (setLoop (fun i => ((i + p) % 2 ^ 64) % v.length) (fun i => v.getD i 0)
        v.length (List.replicate v.length 0)).getD
          ((((t + (v.length - p)) % v.length) + p) % 2 ^ 64 % v.length) 0 := by
        rw [hkey]
    _ = v.getD ((t + (v.length - p)) % v.length) 0 := this

theorem rotateVectorDown_small (v : List ℚ) (s : Int) (h0 : 0 ≤ s)
    (hs : s < (v.length : Int)) (hle : v.length ≤ 2 ^ 31) :
    rotateVectorDown v s = rotLoop v s.toNat v.length := by
  have hleZ : ((v.length : Int)) ≤ 2 ^ 31 := by exact_mod_cast hle
  have h31 : ((2:Int) ^ 31) ≤ 2 ^ 64 := by norm_num
  have hsN : s.toNat < v.length := by omega
  have e1 : toUInt64 s % v.length = s.toNat := by
    unfold toUInt64
    rw [Int.emod_eq_of_lt h0 (by omega)]
    exact Nat.mod_eq_of_lt hsN
  have e2 : toInt32 s.toNat = ((s.toNat : Nat) : Int) := by
    unfold toInt32
    have h32 : s.toNat % 2 ^ 32 = s.toNat := by
      have h' : (2:Nat) ^ 31 ≤ 2 ^ 32 := by norm_num
      exact Nat.mod_eq_of_lt (by omega)
    rw [h32, if_pos (by omega)]
  have e3 : toUInt64 ((s.toNat : Nat) : Int) = s.toNat := by
    unfold toUInt64
    rw [Int.emod_eq_of_lt (Int.natCast_nonneg _) (by
      have : ((s.toNat : Nat) : Int) = s := Int.toNat_of_nonneg h0
      omega), Int.toNat_natCast]
  unfold rotateVectorDown rotCore
  rw [e1, e2]
  dsimp only
  rw [if_neg (not_lt.mpr (Int.natCast_nonneg s.toNat)), e3]

theorem rotateVectorDown_zero (v : List ℚ) (hle : v.length ≤ 2 ^ 31)
    (hpos : 0 < v.length) :
    rotateVectorDown v 0 = v := by
  rw [rotateVectorDown_small v 0 le_rfl (by exact_mod_cast hpos) hle]
  apply List.ext_getElem (rotLoop_length v 0 v.length)
  intro t h₁ h₂
  have hloop := rotLoop_getD v 0 hpos hle t h₂
  rw [show v.length - 0 = v.length by omega, Nat.add_mod_right,
    Nat.mod_eq_of_lt h₂] at hloop
  rw [← List.getD_eq_getElem _ 0 h₁, ← List.getD_eq_getElem _ 0 h₂]
  exact hloop

theorem preshiftAmount_spec (ns n1 j : Int) (hns : 0 < ns) :
    0 ≤ preshiftAmount ns n1 j ∧ preshiftAmount ns n1 j < ns ∧
    preshiftAmount ns n1 j % ns = (n1 * j) % ns := by
  unfold preshiftAmount
  dsimp only
  have hb := tmod_bounds (n1 * j) ns hns
  have hadd := Int.tdiv_add_tmod (n1 * j) ns
  have hmodeq : (n1 * j).tmod ns % ns = (n1 * j) % ns := by
    conv_rhs => rw [← hadd]
    rw [add_comm, Int.add_mul_emod_self_left]
  split_ifs with hneg
  · refine ⟨by omega, by omega, ?_⟩
    rw [show (n1 * j).tmod ns + ns = (n1 * j).tmod ns + ns * 1 by ring,
      Int.add_mul_emod_self_left, hmodeq]
  · exact ⟨by omega, by omega, hmodeq⟩

theorem cyclicShiftUp_length (m : Int) (v : List ℚ) :
    (cyclicShiftUp m v).length = v.length := by
  unfold cyclicShiftUp
  rw [List.length_map, List.length_range]

/-- Pre-shifting a diagonal down by `s` and then rotating the encoded plaintext
up by `g` restores the original diagonal whenever `s ≡ g (mod n)`. -/
theorem cyclicShiftUp_rotateVectorDown (v : List ℚ) (g s : Int)
    (h0 : 0 ≤ s) (hs : s < (v.length : Int)) (hle : v.length ≤ 2 ^ 31)
    (hcong : s % (v.length : Int) = g % (v.length : Int)) :
    cyclicShiftUp g (rotateVectorDown v s) = v := by
  have hn : 0 < v.length := by
    by_contra h
    have : v.length = 0 := by omega
    rw [this] at hs
    omega
  have hnZ : (0:Int) < (v.length : Int) := by exact_mod_cast hn
  rw [rotateVectorDown_small v s h0 hs hle]
  have hlenw : (rotLoop v s.toNat v.length).length = v.length :=
    rotLoop_length v s.toNat v.length
  have hsN : s.toNat < v.length := by omega
  have hsNc : ((s.toNat : Nat) : Int) = s := Int.toNat_of_nonneg h0
  apply List.ext_getElem (by rw [cyclicShiftUp_length, hlenw])
  intro t h₁ h₂
  unfold cyclicShiftUp
  rw [List.getElem_map, List.getElem_range]
  rw [hlenw]
  have htZ : (0:Int) ≤ ((t : Int) + g) % (v.length : Int) :=
    Int.emod_nonneg _ (by omega)
  have htlt : ((t : Int) + g) % (v.length : Int) < (v.length : Int) :=
    Int.emod_lt_of_pos _ hnZ
  have ht' : (((t : Int) + g) % (v.length : Int)).toNat < v.length := by omega
  rw [rotLoop_getD v s.toNat hsN hle _ ht']
  have hdvd : ((v.length : Int)) ∣ (g - s) := Int.ModEq.dvd hcong
  obtain ⟨q, hq⟩ := hdvd
  have hidx : ((((t : Int) + g) % (v.length : Int)).toNat +
      (v.length - s.toNat)) % v.length = t := by
    have hcast : (((((t : Int) + g) % (v.length : Int)).toNat +
        (v.length - s.toNat)) % v.length : Nat) = (t : Nat) := by
      have hstep : ((((((t : Int) + g) % (v.length : Int)).toNat +
          (v.length - s.toNat)) % v.length : Nat) : Int) = ((t : Nat) : Int) := by
        rw [Int.natCast_mod]
        push_cast [Nat.cast_sub (le_of_lt hsN)]
        rw [Int.toNat_of_nonneg htZ, hsNc]
        rw [Int.emod_add_emod]
        rw [show (t : Int) + g + ((v.length : Int) - s) =
          (t : Int) + (v.length : Int) * q + (v.length : Int) * 1 by
            linear_combination hq]
        rw [Int.add_mul_emod_self_left, Int.add_mul_emod_self_left]
        exact Int.emod_eq_of_lt (by positivity) (by exact_mod_cast h₂)
      exact_mod_cast hstep
    exact hcast
  rw [hidx]
  rw [List.getD_eq_getElem v 0 (by omega : t < v.length)]

/-! ### Ordered-set and fold lemmas for the refinement proof -/

theorem setInsert_sorted (x : Int) (l : List Int) (h : l.Sorted (· < ·)) :
    (setInsert x l).Sorted (· < ·) := by
  induction l with
  | nil => exact List.sorted_singleton x
  | cons y ys ih =>
    unfold setInsert
    split_ifs with h1 h2
    · exact List.Sorted.cons h1 h
    · exact h
    · have hys := h.of_cons
      refine List.sorted_cons.mpr ⟨?_, ih hys⟩
      intro z hz
      rcases (mem_setInsert x z ys).mp hz with rfl | hz'
      · omega
      · exact List.rel_of_sorted_cons h z hz'

theorem collectSteps_sorted (K : List Int) (n1 : Int) :
    (collectSteps K n1).1.Sorted (· < ·) ∧ (collectSteps K n1).2.Sorted (· < ·) := by
  unfold collectSteps
  suffices h : ∀ (l : List Int) (st : List Int × List Int),
      st.1.Sorted (· < ·) → st.2.Sorted (· < ·) →
      ((l.foldl (stepInsert n1) st).1.Sorted (· < ·) ∧
       (l.foldl (stepInsert n1) st).2.Sorted (· < ·)) by
    exact h K ([], []) List.sorted_nil List.sorted_nil
  intro l
  induction l with
  | nil => exact fun st h1 h2 => ⟨h1, h2⟩
  | cons k ks ih =>
    intro st h1 h2
    rw [List.foldl_cons]
    exact ih (stepInsert n1 st k) (setInsert_sorted _ _ h1) (setInsert_sorted _ _ h2)

theorem foldl_accAdd_some {C P : Type} (caps : HECaps C P) {α : Type}
    (term : α → C) :
    ∀ (l : List α) (c : C),
      l.foldl (fun r x => accAdd caps r (term x)) (some c) =
        some (l.foldl (fun r x => caps.add r (term x)) c) := by
  intro l
  induction l with
  | nil => exact fun c => rfl
  | cons x xs ih =>
    intro c
    rw [List.foldl_cons, List.foldl_cons]
    exact ih (caps.add c (term x))

theorem foldl_accAdd_cons_none {C P : Type} (caps : HECaps C P) {α : Type}
    (term : α → C) (x : α) (xs : List α) :
    (x :: xs).foldl (fun r y => accAdd caps r (term y)) none =
      some (xs.foldl (fun r y => caps.add r (term y)) (term x)) := by
  rw [List.foldl_cons]
  exact foldl_accAdd_some caps term xs (term x)

theorem rot_foldl_add {C P : Type} (caps : HECaps C P) (hra : RotAddLaw caps)
    {α : Type} (t : α → C) (m : Int) :
    ∀ (l : List α) (c : C),
      caps.rot m (l.foldl (fun r x => caps.add r (t x)) c) =
        l.foldl (fun r x => caps.add r (caps.rot m (t x))) (caps.rot m c) := by
  intro l
  induction l with
  | nil => exact fun c => rfl
  | cons x xs ih =>
    intro c
    rw [List.foldl_cons, List.foldl_cons, ih (caps.add c (t x)), hra]

theorem foldl_add_congr {C P : Type} (caps : HECaps C P) {α : Type}
    (t t' : α → C) :
    ∀ (l : List α) (c : C), (∀ x ∈ l, t x = t' x) →
      l.foldl (fun r x => caps.add r (t x)) c =
        l.foldl (fun r x => caps.add r (t' x)) c := by
  intro l
  induction l with
  | nil => exact fun c _ => rfl
  | cons x xs ih =>
    intro c hcong
    rw [List.foldl_cons, List.foldl_cons, hcong x (List.mem_cons_self x xs),
      ih _ (fun y hy => hcong y (List.mem_cons.mpr (Or.inr hy)))]

theorem add_foldl_assoc {C P : Type} (caps : HECaps C P)
    (hassoc : AddAssocLaw caps) {α : Type} (t : α → C) :
    ∀ (l : List α) (r c : C),
      caps.add r (l.foldl (fun a x => caps.add a (t x)) c) =
        l.foldl (fun a x => caps.add a (t x)) (caps.add r c) := by
  intro l
  induction l with
  | nil => exact fun r c => rfl
  | cons x xs ih =>
    intro r c
    rw [List.foldl_cons, List.foldl_cons, ih r (caps.add c (t x)), hassoc]

theorem accAdd_block {C P : Type} (caps : HECaps C P)
    (hassoc : AddAssocLaw caps) {α : Type} (t : α → C) (e : α) (l : List α)
    (res : Option C) :
    accAdd caps res (l.foldl (fun a x => caps.add a (t x)) (t e)) =
      (e :: l).foldl (fun r x => accAdd caps r (t x)) res := by
  cases res with
  | none => rw [foldl_accAdd_cons_none]; rfl
  | some r =>
    rw [List.foldl_cons,
      show accAdd caps (some r) (t e) = some (caps.add r (t e)) from rfl,
      foldl_accAdd_some,
      show accAdd caps (some r) (l.foldl (fun a x => caps.add a (t x)) (t e)) =
        some (caps.add r (l.foldl (fun a x => caps.add a (t x)) (t e))) from rfl,
      add_foldl_assoc caps hassoc]

theorem foldl_if_filter {α β : Type} (p : α → Prop) [DecidablePred p]
    (f : β → α → β) :
    ∀ (l : List α) (b : β),
      l.foldl (fun x y => if p y then f x y else x) b =
        (l.filter (fun y => decide (p y))).foldl f b := by
  intro l
  induction l with
  | nil => exact fun b => rfl
  | cons a as ih =>
    intro b
    rw [List.foldl_cons, List.filter_cons]
    by_cases h : p a
    · rw [if_pos h, if_pos (by simpa using h), List.foldl_cons]
      exact ih (f b a)
    · rw [if_neg h, if_neg (by simpa using h)]
      exact ih b

/-- The baby indices of giant block `j` whose diagonal is populated, in
ascending order — exactly the indices whose terms the inner loop accumulates. -/
def blockElems (K : List Int) (n1 j : Int) : List Nat :=
  (List.range n1.toNat).filter (fun i => decide (j * n1 + (i : Int) ∈ K))

/-- The populated offsets `k = j*n1 + i` visited in giant block `j`, in
ascending order. -/
def blockKs (K : List Int) (n1 j : Int) : List Int :=
  (blockElems K n1 j).map (fun (i : Nat) => j * n1 + (i : Int))

theorem giantBlockSum_eq_blockElems {C P : Type} (caps : HECaps C P)
    (K : List Int) (diags : Int → List ℚ) (numSlots n1 : Int) (input : C)
    (j : Int) :
    giantBlockSum caps K diags numSlots n1 input j =
      (blockElems K n1 j).foldl
        (fun acc i => accAdd caps acc (blockTerm caps diags numSlots n1 input j i))
        none :=
  foldl_if_filter (fun i : Nat => j * n1 + (i : Int) ∈ K) _ (List.range n1.toNat) none

theorem mem_blockElems (K : List Int) (n1 j : Int) (i : Nat) :
    i ∈ blockElems K n1 j ↔ i < n1.toNat ∧ j * n1 + (i : Int) ∈ K := by
  unfold blockElems
  rw [List.mem_filter, List.mem_range, decide_eq_true_eq]

theorem floorDivision_unique (j i n1 : Int) (hn1 : 1 ≤ n1) (h0 : 0 ≤ i)
    (hi : i < n1) :
    floorDivision (j * n1 + i) n1 = j := by
  rw [floorDivision_eq_ediv _ _ (by omega)]
  rw [show j * n1 + i = i + j * n1 by ring,
    Int.add_mul_ediv_right i j (by omega : n1 ≠ 0),
    Int.ediv_eq_zero_of_lt h0 hi, zero_add]

theorem mem_blockKs (K : List Int) (n1 j : Int) (hn1 : 1 ≤ n1) (k : Int) :
    k ∈ blockKs K n1 j ↔ k ∈ K ∧ floorDivision k n1 = j := by
  unfold blockKs
  rw [List.mem_map]
  constructor
  · rintro ⟨i, hi, rfl⟩
    obtain ⟨hilt, hiK⟩ := (mem_blockElems K n1 j i).mp hi
    have hicast : (i : Int) < n1 := by
      have : ((n1.toNat : Nat) : Int) = n1 := Int.toNat_of_nonneg (by omega)
      omega
    exact ⟨hiK, floorDivision_unique j i n1 hn1 (by positivity) hicast⟩
  · rintro ⟨hk, hfd⟩
    obtain ⟨heq, h0, hlt, -⟩ := floorDivision_decomposition k n1 hn1
    refine ⟨(k - floorDivision k n1 * n1).toNat, ?_, ?_⟩
    · rw [mem_blockElems]
      constructor
      · have : ((n1.toNat : Nat) : Int) = n1 := Int.toNat_of_nonneg (by omega)
        omega
      · rw [hfd] at heq h0 ⊢
        rw [show ((k - j * n1).toNat : Int) = k - j * n1 from
          Int.toNat_of_nonneg h0]
        rw [show j * n1 + (k - j * n1) = k by ring]
        exact hk
    · rw [hfd] at h0 ⊢
      rw [show ((k - j * n1).toNat : Int) = k - j * n1 from
        Int.toNat_of_nonneg h0]
      ring

theorem blockKs_bounds (K : List Int) (n1 j : Int) (hn1 : 1 ≤ n1) (k : Int)
    (hk : k ∈ blockKs K n1 j) :
    j * n1 ≤ k ∧ k < (j + 1) * n1 := by
  unfold blockKs at hk
  rw [List.mem_map] at hk
  obtain ⟨i, hi, rfl⟩ := hk
  obtain ⟨hilt, -⟩ := (mem_blockElems K n1 j i).mp hi
  have hicast : (i : Int) < n1 := by
    have : ((n1.toNat : Nat) : Int) = n1 := Int.toNat_of_nonneg (by omega)
    omega
  constructor
  · have : (0:Int) ≤ (i : Int) := by positivity
    omega
  · have : (j + 1) * n1 = j * n1 + n1 := by ring
    omega

theorem blockKs_sorted (K : List Int) (n1 j : Int) :
    (blockKs K n1 j).Sorted (· < ·) := by
  unfold blockKs blockElems
  exact List.Pairwise.map _ (fun a b hab => by omega)
    (List.Pairwise.filter _ (List.pairwise_lt_range n1.toNat))

theorem flatMap_blockKs_sorted (K : List Int) (n1 : Int) (hn1 : 1 ≤ n1) :
    ∀ (gs : List Int), gs.Sorted (· < ·) →
      (gs.flatMap (fun j => blockKs K n1 j)).Sorted (· < ·) := by
  intro gs
  induction gs with
  | nil => exact fun _ => List.sorted_nil
  | cons j js ih =>
    intro hs
    rw [List.flatMap_cons]
    refine List.pairwise_append.mpr ⟨blockKs_sorted K n1 j, ih hs.of_cons, ?_⟩
    intro a ha b hb
    obtain ⟨j', hj', hb'⟩ := List.mem_flatMap.mp hb
    have hjj' : j < j' := List.rel_of_sorted_cons hs j' hj'
    have hub := (blockKs_bounds K n1 j hn1 a ha).2
    have hlb := (blockKs_bounds K n1 j' hn1 b hb').1
    have hmul : (j + 1) * n1 ≤ j' * n1 :=
      mul_le_mul_of_nonneg_right (by omega) (by omega)
    omega

theorem mem_flatMap_blockKs (K : List Int) (n1 : Int) (hn1 : 1 ≤ n1) (x : Int) :
    x ∈ ((collectSteps K n1).2).flatMap (fun j => blockKs K n1 j) ↔ x ∈ K := by
  rw [List.mem_flatMap]
  constructor
  · rintro ⟨j, hj, hx⟩
    exact ((mem_blockKs K n1 j hn1 x).mp hx).1
  · intro hx
    exact ⟨floorDivision x n1, (collectSteps_snd_mem K n1 _).mpr ⟨x, hx, rfl⟩,
      (mem_blockKs K n1 _ hn1 x).mpr ⟨hx, rfl⟩⟩

theorem sorted_lt_eq_of_mem_iff :
    ∀ {l₁ l₂ : List Int}, l₁.Sorted (· < ·) → l₂.Sorted (· < ·) →
      (∀ x, x ∈ l₁ ↔ x ∈ l₂) → l₁ = l₂ := by
  intro l₁
  induction l₁ with
  | nil =>
    intro l₂ _ _ hmem
    cases l₂ with
    | nil => rfl
    | cons b t₂ =>
      exact absurd ((hmem b).mpr (List.mem_cons_self b t₂)) (List.not_mem_nil b)
  | cons a t₁ ih =>
    intro l₂ h₁ h₂ hmem
    cases l₂ with
    | nil =>
      exact absurd ((hmem a).mp (List.mem_cons_self a t₁)) (List.not_mem_nil a)
    | cons b t₂ =>
      have hab : a = b := by
        rcases List.mem_cons.mp ((hmem a).mp (List.mem_cons_self a t₁)) with h | h
        · exact h
        · rcases List.mem_cons.mp ((hmem b).mpr (List.mem_cons_self b t₂)) with h' | h'
          · exact h'.symm
          · have hba := List.rel_of_sorted_cons h₁ b h'
            have hab := List.rel_of_sorted_cons h₂ a h
            omega
      subst hab
      have htails : ∀ x, x ∈ t₁ ↔ x ∈ t₂ := by
        intro x
        constructor
        · intro hx
          have hax := List.rel_of_sorted_cons h₁ x hx
          rcases List.mem_cons.mp ((hmem x).mp (List.mem_cons.mpr (Or.inr hx)))
            with h | h
          · omega
          · exact h
        · intro hx
          have hax := List.rel_of_sorted_cons h₂ x hx
          rcases List.mem_cons.mp ((hmem x).mpr (List.mem_cons.mpr (Or.inr hx)))
            with h | h
          · omega
          · exact h
      rw [ih h₁.of_cons h₂.of_cons htails]

/-- The sorted populated offsets decompose exactly into the giant blocks, in
traversal order. -/
theorem flatMap_blockKs_eq (K : List Int) (n1 : Int) (hn1 : 1 ≤ n1)
    (hK : K.Sorted (· < ·)) :
    ((collectSteps K n1).2).flatMap (fun j => blockKs K n1 j) = K :=
  sorted_lt_eq_of_mem_iff
    (flatMap_blockKs_sorted K n1 hn1 _ (collectSteps_sorted K n1).2)
    hK (mem_flatMap_blockKs K n1 hn1)

theorem block_offset_ne_zero (j i n1 : Int) (hn1 : 1 ≤ n1) (h0 : 0 ≤ i)
    (hi : i < n1) (hj : j ≠ 0) : j * n1 + i ≠ 0 := by
  intro h
  rcases lt_or_gt_of_ne hj with hneg | hpos
  · have h1 := mul_le_mul_of_nonneg_right (show j ≤ -1 by omega)
      (show (0:Int) ≤ n1 by omega)
    have h2 : (-1 : Int) * n1 = -n1 := by ring
    omega
  · have h1 := mul_le_mul_of_nonneg_right (show (1:Int) ≤ j by omega)
      (show (0:Int) ≤ n1 by omega)
    have h2 : (1 : Int) * n1 = n1 := by ring
    omega

/-- The heart of the refinement: one block term, giant-rotated when `j ≠ 0`,
equals the corresponding term of the simple diagonal method. -/
theorem rotated_blockTerm_eq_simpleTerm {C P : Type} (caps : HECaps C P)
    (hrr : RotRotLaw caps) (hrm : RotMultLaw caps)
    (diags : Int → List ℚ) (ns n1 : Int) (input : C) (j : Int) (i : Nat)
    (hns : 0 < ns) (hns31 : ns ≤ 2 ^ 31) (hn1 : 1 ≤ n1) (hi : (i : Int) < n1)
    (hlen : (diags (j * n1 + (i : Int))).length = ns.toNat) :
    (if j ≠ 0 then caps.rot (n1 * j) (blockTerm caps diags ns n1 input j i)
     else blockTerm caps diags ns n1 input j i) =
      simpleTerm caps diags input (j * n1 + (i : Int)) := by
  have hfd : floorDivision (j * n1 + (i : Int)) n1 = j :=
    floorDivision_unique j i n1 hn1 (by positivity) hi
  have hlenZ : ((diags (j * n1 + (i : Int))).length : Int) = ns := by
    rw [hlen]
    exact Int.toNat_of_nonneg hns.le
  have hlen31 : (diags (j * n1 + (i : Int))).length ≤ 2 ^ 31 := by omega
  have hlenpos : 0 < (diags (j * n1 + (i : Int))).length := by omega
  by_cases hj : j = 0
  · subst hj
    rw [if_neg (by simp)]
    unfold blockTerm preshiftedDiagonal
    rw [hfd]
    have hps : preshiftAmount ns n1 0 = 0 := by
      unfold preshiftAmount
      dsimp only
      rw [mul_zero, Int.zero_tmod]
      norm_num
    rw [hps, rotateVectorDown_zero _ hlen31 hlenpos]
    unfold simpleTerm babyOf
    rw [show (0:Int) * n1 + (i : Int) = (i : Int) by ring]
  · rw [if_pos hj]
    unfold blockTerm preshiftedDiagonal
    rw [hfd, hrm]
    obtain ⟨hps0, hpslt, hpsmod⟩ := preshiftAmount_spec ns n1 j hns
    have hinv : cyclicShiftUp (n1 * j)
        (rotateVectorDown (diags (j * n1 + (i : Int)))
          (preshiftAmount ns n1 j)) = diags (j * n1 + (i : Int)) := by
      apply cyclicShiftUp_rotateVectorDown
      · exact hps0
      · rw [hlenZ]
        exact hpslt
      · exact hlen31
      · rw [hlenZ]
        exact hpsmod
    rw [hinv]
    have hkne : j * n1 + (i : Int) ≠ 0 :=
      block_offset_ne_zero j i n1 hn1 (by positivity) hi hj
    unfold simpleTerm babyOf
    rw [if_neg hkne]
    by_cases hi0 : (i : Int) = 0
    · rw [if_pos hi0, show j * n1 + (i : Int) = n1 * j by rw [hi0]; ring]
    · rw [if_neg hi0, hrr, show n1 * j + (i : Int) = j * n1 + (i : Int) by ring]

/-- Processing one giant block of the BSGS loop equals folding the simple
method's terms of that block's populated offsets into the accumulator. -/
theorem blockStep_eq {C P : Type} (caps : HECaps C P)
    (hra : RotAddLaw caps) (hrr : RotRotLaw caps) (hrm : RotMultLaw caps)
    (hassoc : AddAssocLaw caps) (K : List Int) (diags : Int → List ℚ)
    (ns n1 : Int) (input : C) (j : Int) (res : Option C)
    (hns : 0 < ns) (hns31 : ns ≤ 2 ^ 31) (hn1 : 1 ≤ n1)
    (hlen : ∀ k ∈ K, (diags k).length = ns.toNat) :
    (match giantBlockSum caps K diags ns n1 input j with
     | none => res
     | some blockSum =>
         accAdd caps res (if j ≠ 0 then caps.rot (n1 * j) blockSum else blockSum)) =
      (blockKs K n1 j).foldl
        (fun r k => accAdd caps r (simpleTerm caps diags input k)) res := by
  rw [giantBlockSum_eq_blockElems]
  unfold blockKs
  have hterm : ∀ i ∈ blockElems K n1 j,
      (if j ≠ 0 then caps.rot (n1 * j) (blockTerm caps diags ns n1 input j i)
       else blockTerm caps diags ns n1 input j i) =
        simpleTerm caps diags input (j * n1 + (i : Int)) := by
    intro i hi
    obtain ⟨hilt, hiK⟩ := (mem_blockElems K n1 j i).mp hi
    have hicast : (i : Int) < n1 := by
      have : ((n1.toNat : Nat) : Int) = n1 := Int.toNat_of_nonneg (by omega)
      omega
    exact rotated_blockTerm_eq_simpleTerm caps hrr hrm diags ns n1 input j i
      hns hns31 hn1 hicast (hlen _ hiK)
  cases hbe : blockElems K n1 j with
  | nil => rfl
  | cons e es =>
    have heme : e ∈ blockElems K n1 j := by
      rw [hbe]
      exact List.mem_cons_self e es
    have hmemes : ∀ i ∈ es, i ∈ blockElems K n1 j := by
      intro i hi
      rw [hbe]
      exact List.mem_cons.mpr (Or.inr hi)
    rw [foldl_accAdd_cons_none]
    show accAdd caps res
        (if j ≠ 0 then
          caps.rot (n1 * j)
            (es.foldl (fun r y =>
              caps.add r (blockTerm caps diags ns n1 input j y))
              (blockTerm caps diags ns n1 input j e))
         else
          es.foldl (fun r y =>
            caps.add r (blockTerm caps diags ns n1 input j y))
            (blockTerm caps diags ns n1 input j e)) = _
    rw [List.foldl_map]
    by_cases hj : j = 0
    · rw [if_neg (by simpa using hj)]
      have hte : blockTerm caps diags ns n1 input j e =
          simpleTerm caps diags input (j * n1 + (e : Int)) := by
        have := hterm e heme
        rwa [if_neg (by simpa using hj)] at this
      rw [hte,
        foldl_add_congr caps (fun y => blockTerm caps diags ns n1 input j y)
          (fun y => simpleTerm caps diags input (j * n1 + (y : Int))) es _
          (fun y hy => by
            have := hterm y (hmemes y hy)
            rwa [if_neg (by simpa using hj)] at this)]
      exact accAdd_block caps hassoc
        (fun y : Nat => simpleTerm caps diags input (j * n1 + (y : Int))) e es res
    · rw [if_pos hj, rot_foldl_add caps hra]
      have hte : caps.rot (n1 * j) (blockTerm caps diags ns n1 input j e) =
          simpleTerm caps diags input (j * n1 + (e : Int)) := by
        have := hterm e heme
        rwa [if_pos hj] at this
      rw [hte,
        foldl_add_congr caps
          (fun y => caps.rot (n1 * j) (blockTerm caps diags ns n1 input j y))
          (fun y => simpleTerm caps diags input (j * n1 + (y : Int))) es _
          (fun y hy => by
            have := hterm y (hmemes y hy)
            rwa [if_pos hj] at this)]
      exact accAdd_block caps hassoc
        (fun y : Nat => simpleTerm caps diags input (j * n1 + (y : Int))) e es res

/-- C2 (amended): for every set of populated signed diagonal offsets `K` and
every input ciphertext, the BSGS evaluation computes the same result as the
simple diagonal method `Σ_{k ∈ K} Mult(Rotate(input, k), diagonal_k)`, assuming
the HE capabilities satisfy that `Rotate` distributes over `Add`, that
`Rotate(m) ∘ Rotate(i) = Rotate(m+i)`, that rotating a product by `m` equals
the product of the rotated ciphertext and the plaintext cyclically shifted by
`m`, and — in addition to what the claim states — that `Add` is associative. -/
theorem bsgsEval_eq_simpleEval {C P : Type} (caps : HECaps C P)
    (hra : RotAddLaw caps) (hrr : RotRotLaw caps) (hrm : RotMultLaw caps)
    (hassoc : AddAssocLaw caps) (K : List Int) (diags : Int → List ℚ)
    (numSlots n1 : Int) (input : C)
    (hK : K.Sorted (· < ·)) (hn1 : 1 ≤ n1)
    (hns : 0 < numSlots) (hns31 : numSlots ≤ 2 ^ 31)
    (hlen : ∀ k ∈ K, (diags k).length = numSlots.toNat) :
    bsgsEval caps K diags numSlots n1 input = simpleEval caps K diags input := by
  unfold bsgsEval
  have main : ∀ (gs : List Int) (res : Option C),
      gs.foldl
        (fun (result : Option C) (j : Int) =>
          match giantBlockSum caps K diags numSlots n1 input j with
          | none => result
          | some blockSum =>
              accAdd caps result
                (if j ≠ 0 then caps.rot (n1 * j) blockSum else blockSum)) res =
      (gs.flatMap (fun j => blockKs K n1 j)).foldl
        (fun r k => accAdd caps r (simpleTerm caps diags input k)) res := by
    intro gs
    induction gs with
    | nil => exact fun res => rfl
    | cons j js ih =>
      intro res
      rw [List.foldl_cons, List.flatMap_cons, List.foldl_append,
        blockStep_eq caps hra hrr hrm hassoc K diags numSlots n1 input j res
          hns hns31 hn1 hlen]
      exact ih _
  rw [main ((collectSteps K n1).2) none, flatMap_blockKs_eq K n1 hn1 hK]
  rfl

/-- A capability instance with genuine (associative) addition: rotation is the
identity and multiplication ignores the plaintext. -/
def addCaps : HECaps Int Unit where
  add := fun a b => a + b
  mult := fun c _ => c
  rot := fun _ c => c
  encode := fun _ => ()

/-- Witness for the amended C2 at `addCaps`, `K = [0, 1, 2, 3]`,
`numSlots = 4`, `n1 = 2`, `input = 1`. -/
theorem bsgsEval_eq_simpleEval_witness :
    (RotAddLaw addCaps ∧ RotRotLaw addCaps ∧ RotMultLaw addCaps ∧
     AddAssocLaw addCaps ∧
     ([0, 1, 2, 3] : List Int).Sorted (· < ·) ∧ (1 : Int) ≤ 2 ∧
     (0 : Int) < 4 ∧ (4 : Int) ≤ 2 ^ 31 ∧
     (∀ k ∈ ([0, 1, 2, 3] : List Int),
       (((fun _ => [0, 0, 0, 0]) : Int → List ℚ) k).length = (4 : Int).toNat)) ∧
    bsgsEval addCaps [0, 1, 2, 3] (fun _ => [0, 0, 0, 0]) 4 2 1 =
      simpleEval addCaps [0, 1, 2, 3] (fun _ => [0, 0, 0, 0]) 1 :=
  ⟨⟨fun m a b => rfl, fun m i c => rfl, fun m c v => rfl,
     fun a b c => add_assoc a b c,
     by decide, by decide, by decide, by decide, fun k _ => rfl⟩,
   bsgsEval_eq_simpleEval addCaps (fun m a b => rfl) (fun m i c => rfl)
     (fun m c v => rfl) (fun a b c => add_assoc a b c) [0, 1, 2, 3]
     (fun _ => [0, 0, 0, 0]) 4 2 1 (by decide) (by decide) (by decide)
     (by decide) (fun k _ => rfl)⟩
